import Mathlib

/-!
Verification of the quirk-table core (`src/quirks.py`): the `Quirk` value
object with its percent-conversion rule, `Omnipod` hardpoint folding, the
1-D shared-quirk reduction of `Battlemech._build_matrix`, and the 2-D
per-column reduction of `Omnimech._build_matrix`.

Modelling conventions:
* Python strings are Lean `String`s; the operations the code uses
  (substring test `in`, `.lower()`, `.upper()`, `.title()`,
  `.replace('_',' ')`, lexicographic comparison by code point) are embedded
  as explicit character-list functions, since the corresponding `String`
  library functions do not reduce in the kernel.
* `float(v)` on the decimal strings the data carries is modelled exactly as
  a scaled integer: a pair `(m, k)` denoting `m / 10^k` (IEEE-754 rounding
  of non-representable decimals is not modelled).  `int(x)` is truncation
  toward zero, `pyTrunc`.
* Fallible Python code (KeyError, ValueError, StopIteration, `.remove` on a
  missing element) is modelled with `Option`: `none` is the raised error.
* Python dicts are association lists in insertion order (dict keys are
  distinct by construction).  The Python `set` used by
  `Omnimech._build_matrix` is a first-occurrence deduplicated list; only
  membership in it is ever relevant to the properties proved here.
* `list.sort()` / `sorted()` are a stable ascending insertion sort using
  the code's `__lt__` (comparison by `name` for quirks, plain string
  comparison for variant names).
-/

/-- Characters are compared by code point, as Python compares strings. -/
def charCode (c : Char) : Nat := c.toNat

/-- Test whether the first list is an initial segment of the second. -/
def listStarts : List Char → List Char → Bool
  | [], _ => true
  | _ :: _, [] => false
  | p :: ps, c :: cs => (p == c) && listStarts ps cs

/-- Test whether `pat` occurs as a contiguous sublist. -/
def listHasSub (pat : List Char) : List Char → Bool
  | [] => listStarts pat []
  | c :: cs => listStarts pat (c :: cs) || listHasSub pat cs

/-- Python's substring test `pat in s`. -/
def strContains (s pat : String) : Bool :=
  listHasSub pat.toList s.toList

/-- Lexicographic `≤` on code-point lists: Python's string comparison.
At the first position the lists differ the smaller code point decides; a
proper prefix compares below. -/
def lexLe : List Nat → List Nat → Bool
  | [], _ => true
  | _ :: _, [] => false
  | a :: as, b :: bs => decide (a < b) || (!(decide (b < a)) && lexLe as bs)

/-- The `mapM` of the `Option` monad, written out so that its equations are
directly usable: the first `none` aborts the whole traversal. -/
def optionMapM {α β : Type} (f : α → Option β) : List α → Option (List β)
  | [] => some []
  | x :: xs =>
    match f x with
    | none => none
    | some y =>
      match optionMapM f xs with
      | none => none
      | some ys => some (y :: ys)

/-- The `foldlM` of the `Option` monad: the first `none` aborts the fold. -/
def optionFoldlM {α σ : Type} (f : σ → α → Option σ) : σ → List α → Option σ
  | s, [] => some s
  | s, x :: xs =>
    match f s x with
    | none => none
    | some s2 => optionFoldlM f s2 xs

/-- Code points of a string. -/
def strCodes (s : String) : List Nat := s.toList.map charCode

/-- Python's `s <= t` on strings. -/
def pyStrLe (s t : String) : Bool := lexLe (strCodes s) (strCodes t)

/-- Python's `s.lower()` (character-wise, sufficient for ASCII data). -/
def pyLower (s : String) : String := String.mk (s.toList.map Char.toLower)

/-- Python's `s.upper()` (character-wise, sufficient for ASCII data). -/
def pyUpper (s : String) : String := String.mk (s.toList.map Char.toUpper)

/-- Python's `s.title()`: a cased character following a non-cased character
is uppercased, every other cased character is lowercased. -/
def pyTitle (s : String) : String :=
  String.mk ((s.toList.foldl
    (fun (acc : Bool × List Char) c =>
      (c.isAlpha,
       acc.2 ++ [if c.isAlpha then (if acc.1 then c.toLower else c.toUpper) else c]))
    (false, [])).2)

/-- Python's `s.replace('_', ' ')` for the single-character pattern used. -/
def underscoreToSpace (s : String) : String :=
  String.mk (s.toList.map (fun c => if c = '_' then ' ' else c))

/-- Split a character list at every `'.'`, like Python's `s.split('.')`. -/
def splitDots : List Char → List (List Char)
  | [] => [[]]
  | c :: rest =>
    if c = '.' then [] :: splitDots rest
    else
      match splitDots rest with
      | [] => [[c]]
      | h :: t => (c :: h) :: t

/-- Decimal digit string test. -/
def allDigits (cs : List Char) : Bool := cs.all Char.isDigit

/-- Numeric value of a digit string (0 for the empty list). -/
def digitsToNat (cs : List Char) : Nat :=
  cs.foldl (fun acc c => acc * 10 + (charCode c - 48)) 0

/-- Parse an unsigned decimal literal `w`, `w.f`, `.f` or `w.` into
`(mantissa, fractional-digit count)`, denoting `mantissa / 10^k`.
Anything else (what Python's `float` would reject on this data) is `none`. -/
def parseUnsignedDec (cs : List Char) : Option (Nat × Nat) :=
  match splitDots cs with
  | [w] => if w.isEmpty || !(allDigits w) then none else some (digitsToNat w, 0)
  | [w, f] =>
    if (w.isEmpty && f.isEmpty) || !(allDigits w) || !(allDigits f) then none
    else some (digitsToNat (w ++ f), f.length)
  | _ => none

/-- Python's `float(v)` on the decimal strings in the data, kept exact as a
scaled integer `(m, k)` denoting `m / 10^k`. -/
def pyFloatParse (s : String) : Option (Int × Nat) :=
  match s.toList with
  | '-' :: rest => (parseUnsignedDec rest).map (fun p => (-(p.1 : Int), p.2))
  | cs => (parseUnsignedDec cs).map (fun p => ((p.1 : Int), p.2))

/-- Python's `int(-)` applied to the exact value `p.1 / 10^p.2`: truncation
toward zero. -/
def pyTrunc (p : Int × Nat) : Int :=
  if p.1 < 0 then -(((-p.1).toNat / 10 ^ p.2 : Nat) : Int)
  else ((p.1.toNat / 10 ^ p.2 : Nat) : Int)

/-- The exact rational value denoted by a scaled integer. -/
def ratValue (p : Int × Nat) : ℚ := (p.1 : ℚ) / (10 : ℚ) ^ p.2

/-- A raw modifier record `{translated_name, value}`. -/
structure RawQuirk where
  translated_name : String
  value : String
deriving DecidableEq

/-- A constructed `Quirk`: name and display value. -/
structure Quirk where
  name : String
  value : String
deriving DecidableEq

/-- The fixed keyword tuple `non_percent_quirks` of `Quirk.__init__`. -/
def non_percent_quirks : List String :=
  ["ADDITIONAL", "BONUS", "HARDPOINT", "ANGLE", "JUMP", "NARC", "SENSOR"]

/-- `Quirk.__init__`: keep the raw value verbatim when the name contains a
non-percent keyword, otherwise render `str(int(float(value) * 100)) + '%'`.
A value `float` cannot parse is a construction error (`none`). -/
def mkQuirk (r : RawQuirk) : Option Quirk :=
  if !(non_percent_quirks.any (fun item => strContains r.translated_name item)) then
    (pyFloatParse r.value).map
      (fun p => ⟨r.translated_name, toString (pyTrunc (p.1 * 100, p.2)) ++ "%"⟩)
  else some ⟨r.translated_name, r.value⟩

/-- Stable insertion of `a` into `l` with respect to `le`. -/
def insertSorted {α : Type} (le : α → α → Bool) (a : α) : List α → List α
  | [] => [a]
  | x :: xs => if le a x then a :: x :: xs else x :: insertSorted le a xs

/-- Stable ascending insertion sort: the embedding of Python's stable
`sort()` / `sorted()`. -/
def insSort {α : Type} (le : α → α → Bool) : List α → List α
  | [] => []
  | x :: xs => insertSorted le x (insSort le xs)

/-- Quirk ordering `Quirk.__lt__`: by `name`. -/
def quirkLeB (a b : Quirk) : Bool := pyStrLe a.name b.name

/-- The `Component` enum. -/
inductive Component where
  | hd | ra | rt | ct | lt | la | rl | ll
deriving DecidableEq

/-- The enum member's `value` string. -/
def Component.value : Component → String
  | .hd => "head"
  | .ra => "right_arm"
  | .rt => "right_torso"
  | .ct => "centre_torso"
  | .lt => "left_torso"
  | .la => "left_arm"
  | .rl => "right_leg"
  | .ll => "left_leg"

/-- `Component(s)`: resolve a raw name, `none` for `ValueError`. -/
def Component.fromString (s : String) : Option Component :=
  if s = "head" then some .hd
  else if s = "right_arm" then some .ra
  else if s = "right_torso" then some .rt
  else if s = "centre_torso" then some .ct
  else if s = "left_torso" then some .lt
  else if s = "left_arm" then some .la
  else if s = "right_leg" then some .rl
  else if s = "left_leg" then some .ll
  else none

/-- The fixed iteration order of the enum (column order of the 2-D matrix). -/
def Component.all : List Component := [.hd, .ra, .rt, .ct, .lt, .la, .rl, .ll]

/-- `Component.__str__`: "Center Torso" for `centre_torso`, otherwise
title-cased with underscores replaced by spaces. -/
def Component.str (c : Component) : String :=
  if c.value = "centre_torso" then "Center Torso"
  else pyTitle (underscoreToSpace c.value)

/-- A raw hardpoint record `{type, count}` (count already an integer). -/
structure RawHardpoint where
  type : String
  count : Int
deriving DecidableEq

/-- The accumulated hardpoint counts, keys in dict insertion order
(`beam`, `missle` (sic), `ballistic`, `ams`, `ecm`). -/
structure Hardpoints where
  beam : Int
  missle : Int
  ballistic : Int
  ams : Int
  ecm : Int
deriving DecidableEq

/-- The initial all-zero counts dict. -/
def Hardpoints.init : Hardpoints := ⟨0, 0, 0, 0, 0⟩

/-- `all(count == 0 for count in self.hardpoints.values())`. -/
def Hardpoints.allZero (hp : Hardpoints) : Bool :=
  hp.beam == 0 && hp.missle == 0 && hp.ballistic == 0 && hp.ams == 0 && hp.ecm == 0

/-- One step of `Omnipod._get_hardpoints`:
`hardpoints[hardpoint['type'].lower()] += int(hardpoint['count'])`.
An unrecognized key is a `KeyError` (`none`). -/
def addHardpoint (hp : Hardpoints) (r : RawHardpoint) : Option Hardpoints :=
  match pyLower r.type with
  | "beam" => some { hp with beam := hp.beam + r.count }
  | "missle" => some { hp with missle := hp.missle + r.count }
  | "ballistic" => some { hp with ballistic := hp.ballistic + r.count }
  | "ams" => some { hp with ams := hp.ams + r.count }
  | "ecm" => some { hp with ecm := hp.ecm + r.count }
  | _ => none

/-- `Omnipod._get_hardpoints` over the (flattened) hardpoint records of all
sub-assemblies of the pod. -/
def Omnipod.get_hardpoints (records : List RawHardpoint) : Option Hardpoints :=
  optionFoldlM addHardpoint Hardpoints.init records

/-- The name of the synthetic hardpoints quirk,
`'\n\t<b>HARDPOINTS</b>'`. -/
def hardpointsQuirkName : String := "\n\t<b>HARDPOINTS</b>"

/-- The `(shortname, color, count)` rows of `_add_hardpoints_to_quirks`, in
the fixed dict order beam, missle, ballistic, ams, ecm. -/
def hpEntries (hp : Hardpoints) : List (String × String × Int) :=
  [("E", "orange", hp.beam), ("M", "teal", hp.missle),
   ("B", "purple", hp.ballistic), ("AMS", "red", hp.ams), ("ECM", "green", hp.ecm)]

/-- The `', '`-joined, color-tagged value string of the synthetic quirk:
each kind with count > 0 as `<font color="...">{count}{shortname}</font>`. -/
def hardpointString (hp : Hardpoints) : String :=
  String.intercalate ", "
    (((hpEntries hp).filter (fun e => decide (0 < e.2.2))).map
      (fun e => "<font color=\"" ++ e.2.1 ++ "\">" ++ toString e.2.2 ++ e.1 ++ "</font>"))

/-- `Omnipod._add_hardpoints_to_quirks`: append nothing when every count is
zero, otherwise append the one synthetic quirk (built through the `Quirk`
constructor) at the end of the list. -/
def add_hardpoints_to_quirks (quirks : List Quirk) (hp : Hardpoints) : Option (List Quirk) :=
  if hp.allZero then some quirks
  else (mkQuirk ⟨hardpointsQuirkName, hardpointString hp⟩).map (fun q => quirks ++ [q])

/-- `Omnipod._get_quirks`: construct each quirk, then sort by name. -/
def Omnipod.get_quirks (raw : List RawQuirk) : Option (List Quirk) :=
  (optionMapM mkQuirk raw).map (fun qs => insSort quirkLeB qs)

/-- The raw data an `Omnipod` is built from. -/
structure RawPod where
  component_name : String
  variant : String
  quirks : List RawQuirk
  hardpoint_records : List RawHardpoint
deriving DecidableEq

/-- An `Omnipod`: component, variant and (mutable in the source) quirk list. -/
structure Omnipod where
  component : Component
  variant : String
  quirks : List Quirk
deriving DecidableEq

/-- `Omnipod.__init__`: resolve the component, build the sorted quirk list,
fold the hardpoints, then append the synthetic hardpoints quirk. -/
def mkOmnipod (r : RawPod) : Option Omnipod :=
  (Component.fromString r.component_name).bind (fun c =>
    (Omnipod.get_quirks r.quirks).bind (fun qs =>
      (Omnipod.get_hardpoints r.hardpoint_records).bind (fun hp =>
        (add_hardpoints_to_quirks qs hp).map (fun qs2 => ⟨c, r.variant, qs2⟩))))

/-- `Mech._quirks_string`: one `name: value` line per quirk joined by
newlines, or the placeholder `--` for an empty list. -/
def quirksString (quirks : List Quirk) : String :=
  if quirks.isEmpty then "--"
  else String.intercalate "\n" (quirks.map (fun q => q.name ++ ": " ++ q.value))

/-- Python's `list.remove(q)`: drop the first occurrence, `ValueError`
(`none`) when absent. -/
def listRemove (q : Quirk) : List Quirk → Option (List Quirk)
  | [] => none
  | x :: xs => if x = q then some xs else (listRemove q xs).map (fun l => x :: l)

/-- The flattened candidate pool of `Battlemech._build_matrix`, a snapshot
of all variants' lists taken before any mutation. -/
def bmPool (d : List (String × List Quirk)) : List Quirk :=
  (d.map (fun p => p.2)).flatten

/-- One iteration of the shared-quirk loop of `Battlemech._build_matrix`:
if the pool quirk is currently in every variant's list, append it to the
shared list and remove one occurrence from each variant's list. -/
def bmStep :
    Option (List (String × List Quirk) × List Quirk) → Quirk →
      Option (List (String × List Quirk) × List Quirk)
  | none, _ => none
  | some (d, s), q =>
    if ∀ p ∈ d, q ∈ p.2 then
      match optionMapM (fun p => (listRemove q p.2).map (fun l => (p.1, l))) d with
      | none => none
      | some d2 => some (d2, s ++ [q])
    else some (d, s)

/-- The 1-D shared-quirk reduction of `Battlemech._build_matrix`: fold the
loop over the snapshot pool. -/
def battlemechReduce (d : List (String × List Quirk)) :
    Option (List (String × List Quirk) × List Quirk) :=
  (bmPool d).foldl bmStep (some (d, []))

/-- Python tuple comparison of dict items: by key (variant names are
distinct dict keys, so the list component is never compared). -/
def pairLeB (a b : String × List Quirk) : Bool := pyStrLe a.1 b.1

/-- `Battlemech._build_matrix`: reduce, then one `[variant, quirks]` row per
variant in sorted order, a trailing `['<b>SHARED</b>', shared]` row, string
conversion, and a `[name, 'Quirks']` header row. -/
def Battlemech.build_matrix (name : String) (d : List (String × List Quirk)) :
    Option (List (List String)) :=
  (battlemechReduce d).map (fun r =>
    [name, "Quirks"] ::
      ((insSort pairLeB r.1).map (fun p => [p.1, quirksString p.2]) ++
        [["<b>SHARED</b>", quirksString r.2]]))

/-- A `Battlemech`: uppercased name, parsed per-variant quirk dict, matrix. -/
structure Battlemech where
  name : String
  quirk_dict : List (String × List Quirk)
  matrix : List (List String)
deriving DecidableEq

/-- `Battlemech.__init__`: parse and sort each variant's quirks, then build
the matrix. -/
def mkBattlemech (name : String) (raw : List (String × List RawQuirk)) : Option Battlemech :=
  (optionMapM (fun p =>
      (optionMapM mkQuirk p.2).map (fun qs => (p.1, insSort quirkLeB qs))) raw).bind (fun d =>
    (Battlemech.build_matrix (pyUpper name) d).map (fun m => ⟨pyUpper name, d, m⟩))

/-- `Omnimech._find_pod`: first pod with this variant and component,
`StopIteration` (`none`) when there is none. -/
def find_pod (pods : List Omnipod) (variant : String) (component : Component) :
    Option Omnipod :=
  pods.find? (fun p => decide (variant = p.variant) && decide (component = p.component))

/-- First-occurrence deduplication: the membership content of a Python set
built by repeated insertion. -/
def dedupFirst {α : Type} [DecidableEq α] (l : List α) : List α :=
  l.foldl (fun acc x => if x ∈ acc then acc else acc ++ [x]) []

/-- `sorted(self.variants)`: the distinct variant names in ascending order. -/
def sortedVariants (pods : List Omnipod) : List String :=
  insSort pyStrLe (dedupFirst (pods.map (fun p => p.variant)))

/-- The candidate pool of one component column: the set of quirks of all
pods of the column, skipping quirks whose name contains `HARDPOINTS`. -/
def columnCandidates (col : List Omnipod) : List Quirk :=
  dedupFirst ((col.map (fun p =>
    p.quirks.filter (fun q => !(strContains q.name "HARDPOINTS")))).flatten)

/-- The shared quirks of one column: candidates contained in every pod of
the column, sorted by name. -/
def sharedForColumn (col : List Omnipod) : List Quirk :=
  insSort quirkLeB
    ((columnCandidates col).filter (fun q => decide (∀ p ∈ col, q ∈ p.quirks)))

/-- The in-place overwrite `pod.quirks = [q for q in pod.quirks if q not in
shared]` as a pure pod update. -/
def reducePodAgainst (shared : List Quirk) (p : Omnipod) : Omnipod :=
  { p with quirks := p.quirks.filter (fun q => decide (q ∉ shared)) }

/-- The whole-column effect of the per-column loop: every pod filtered
against the column's shared quirks, paired with those shared quirks. -/
def reduceColumn (col : List Omnipod) : List Omnipod × List Quirk :=
  (col.map (reducePodAgainst (sharedForColumn col)), sharedForColumn col)

/-- One body row of the 2-D matrix: the pod for every component of the
variant, in enum order; a missing pod is fatal. -/
def omniRow (pods : List Omnipod) (v : String) : Option (String × List Omnipod) :=
  (optionMapM (fun c => find_pod pods v c) Component.all).map (fun ps => (v, ps))

/-- The body grid of `Omnimech._build_matrix`: one row per sorted variant. -/
def omniBody (pods : List Omnipod) : Option (List (String × List Omnipod)) :=
  optionMapM (omniRow pods) (sortedVariants pods)

/-- `list(zip(*matrix))[1:]`: the component columns of the body grid. -/
def columnsOf (body : List (String × List Omnipod)) : List (List Omnipod) :=
  (body.map (fun r => r.2)).transpose

/-- The cells of the trailing shared row, one per component column. -/
def omniSharedCells (body : List (String × List Omnipod)) : List (List Quirk) :=
  (columnsOf body).map sharedForColumn

/-- `Omnimech._build_matrix`: body grid, per-column reduction, trailing
`['<b>SHARED</b>', ...]` row, string conversion, header row with the
component display labels. -/
def omniBuildMatrix (name : String) (pods : List Omnipod) : Option (List (List String)) :=
  (omniBody pods).map (fun body =>
    let shared := omniSharedCells body
    let rows := body.map (fun r =>
      r.1 :: ((r.2.zip shared).map (fun pc => quirksString (reducePodAgainst pc.2 pc.1).quirks)))
    let sharedRow := "<b>SHARED</b>" :: shared.map quirksString
    (name :: Component.all.map Component.str) :: (rows ++ [sharedRow]))

/-- An `Omnimech`: uppercased name, pods, matrix. -/
structure Omnimech where
  name : String
  omnipods : List Omnipod
  matrix : List (List String)
deriving DecidableEq

/-- `Omnimech.__init__`: build every pod, then the matrix. -/
def mkOmnimech (name : String) (rawPods : List RawPod) : Option Omnimech :=
  (optionMapM mkOmnipod rawPods).bind (fun pods =>
    (omniBuildMatrix (pyUpper name) pods).map (fun m => ⟨pyUpper name, pods, m⟩))

/-- A concrete quirk whose name contains the keyword `ANGLE`, so its value
is kept verbatim; used in concrete instantiations below. -/
def cqAngle : Quirk := ⟨"TORSO TWIST ANGLE", "5"⟩

/-- A concrete quirk with a keyword-free name, used in concrete
instantiations below. -/
def cqPlain : Quirk := ⟨"ACCEL LOWER LIMIT", "10%"⟩

/-- A concrete pod for variant `A` carrying `cqPlain`. -/
def podS1 : Omnipod := ⟨.hd, "A", [cqPlain]⟩

/-- A concrete pod for variant `B` carrying `cqPlain`. -/
def podS2 : Omnipod := ⟨.hd, "B", [cqPlain]⟩

/-- A concrete pod for variant `A` carrying `cqAngle` besides `cqPlain`. -/
def podW1 : Omnipod := ⟨.hd, "A", [cqAngle]⟩

/-- A concrete pod for variant `B` carrying only `cqPlain`. -/
def podW2 : Omnipod := ⟨.hd, "B", [cqPlain]⟩

/-- A concrete pod set with a single head pod, so every other component is
missing. -/
def podA : Omnipod := ⟨.hd, "A", []⟩

/-!
### An IEEE-754 binary64 model of the `float`/`int` chain

`mkQuirk` above keeps the decimal value exact, which agrees with the
program on dyadic values but not in general: Python rounds `float(v)` to
the nearest binary64 double and rounds again when multiplying by 100.  The
definitions below model that double rounding faithfully.  A double in the
normal range is represented by its exact value `significand * 2 ^ exponent`
as a pair `(significand, exponent) : Int × Int`; rounding is round to
nearest, ties to even, at 53 significant bits.
-/

/-- Floor of the base-2 logarithm of `n` (0 for `n = 0`), computed by
fueled halving; the fuel `n` always suffices since `n` is halved at each
step. -/
def natLog2F : Nat → Nat → Nat
  | 0, _ => 0
  | fuel + 1, n => if 2 ≤ n then natLog2F fuel (n / 2) + 1 else 0

/-- Floor of the base-2 logarithm of `n` (for `n ≥ 1`). -/
def natLog2 (n : Nat) : Nat := natLog2F n n

/-- Whether `2 ^ d ≤ a / b` holds for `a, b ≥ 1`, by cross-multiplication. -/
def ratGePow2 (a b : Nat) (d : Int) : Bool :=
  if 0 ≤ d then decide (b * 2 ^ d.toNat ≤ a) else decide (b ≤ a * 2 ^ (-d).toNat)

/-- The unique `e` with `2 ^ e ≤ a / b < 2 ^ (e + 1)`, for `a, b ≥ 1`: the
true exponent is `log2 a - log2 b` or one less, decided by comparison. -/
def ratExp2 (a b : Nat) : Int :=
  let d : Int := (natLog2 a : Int) - (natLog2 b : Int)
  if ratGePow2 a b d then d else d - 1

/-- Round the positive rational `a / b` (`a, b ≥ 1`) to the nearest
binary64 (round to nearest, ties to even; normal range): scale `a / b` into
`[2 ^ 52, 2 ^ 53)`, round the scaled significand by its remainder, and
return `(significand, exponent)`. -/
def roundPosToF64 (a b : Nat) : Int × Int :=
  let e := ratExp2 a b
  let t := e - 52
  let n := a * 2 ^ (-t).toNat
  let d := b * 2 ^ t.toNat
  let m0 := n / d
  let r := n % d
  let m := if 2 * r < d then m0
           else if d < 2 * r then m0 + 1
           else if m0 % 2 = 0 then m0 else m0 + 1
  ((m : Int), t)

/-- Round `a * 2 ^ t` (`a ≥ 1`) to the nearest binary64. -/
def roundScaled2ToF64 (a : Nat) (t : Int) : Int × Int :=
  if 0 ≤ t then roundPosToF64 (a * 2 ^ t.toNat) 1
  else roundPosToF64 a (2 ^ (-t).toNat)

/-- Round the signed exact decimal `m / 10 ^ k` to the nearest binary64
(IEEE rounding is symmetric under sign). -/
def ratToF64 (m : Int) (k : Nat) : Int × Int :=
  if m < 0 then
    let p := roundPosToF64 (-m).toNat (10 ^ k)
    (-p.1, p.2)
  else if m = 0 then (0, 0)
  else roundPosToF64 m.toNat (10 ^ k)

/-- Python's `float(v)` at binary64 fidelity: the exact decimal rounded to
the nearest double. -/
def pyFloat64 (s : String) : Option (Int × Int) :=
  (pyFloatParse s).map (fun p => ratToF64 p.1 p.2)

/-- Truncation toward zero of the fraction `m / b`. -/
def truncFrac (m : Int) (b : Nat) : Int :=
  if m < 0 then -(((-m).toNat / b : Nat) : Int) else ((m.toNat / b : Nat) : Int)

/-- Python's `int(-)` on a double `(significand, exponent)`: truncation
toward zero of `significand * 2 ^ exponent`. -/
def f64TruncToInt (p : Int × Int) : Int :=
  if 0 ≤ p.2 then p.1 * 2 ^ p.2.toNat
  else truncFrac p.1 (2 ^ (-p.2).toNat)

/-- The exact rational value of a double `(significand, exponent)`. -/
def f64Value (p : Int × Int) : ℚ :=
  if 0 ≤ p.2 then (p.1 : ℚ) * (2 : ℚ) ^ p.2.toNat
  else (p.1 : ℚ) / (2 : ℚ) ^ (-p.2).toNat

/-- The double product `x * 100`: the exact product (the significand times
100) rounded back to 53 bits. -/
def f64Mul100 (p : Int × Int) : Int × Int :=
  if p.1 < 0 then
    let r := roundScaled2ToF64 ((-p.1).toNat * 100) p.2
    (-r.1, r.2)
  else if p.1 = 0 then (0, 0)
  else roundScaled2ToF64 (p.1.toNat * 100) p.2

/-- `Quirk.__init__` with the `float`/`int` chain modelled at binary64
fidelity: `float(value)` rounds the decimal to the nearest double, the
multiplication by 100 rounds again, and `int` truncates toward zero.  This
is the program-accurate refinement of `mkQuirk`, whose exact-decimal
arithmetic agrees with it on dyadic values but not in general. -/
def mkQuirk64 (r : RawQuirk) : Option Quirk :=
  if !(non_percent_quirks.any (fun item => strContains r.translated_name item)) then
    (pyFloat64 r.value).map
      (fun p => ⟨r.translated_name, toString (f64TruncToInt (f64Mul100 p)) ++ "%"⟩)
  else some ⟨r.translated_name, r.value⟩

/-! ### Lemmas about the stable insertion sort -/

theorem mem_insertSorted {α : Type} (le : α → α → Bool) (a x : α) :
    ∀ l : List α, a ∈ insertSorted le x l ↔ a = x ∨ a ∈ l
  | [] => by simp [insertSorted]
  | y :: ys => by
    unfold insertSorted
    by_cases h : le x y
    · simp [h]
    · simp only [if_neg h, List.mem_cons, mem_insertSorted le a x ys]
      tauto

theorem insertSorted_perm {α : Type} (le : α → α → Bool) (x : α) :
    ∀ l : List α, (insertSorted le x l).Perm (x :: l)
  | [] => List.Perm.refl _
  | y :: ys => by
    unfold insertSorted
    by_cases h : le x y
    · rw [if_pos h]
    · rw [if_neg h]
      exact ((insertSorted_perm le x ys).cons y).trans (List.Perm.swap x y ys)

theorem insSort_perm {α : Type} (le : α → α → Bool) :
    ∀ l : List α, (insSort le l).Perm l
  | [] => List.Perm.refl _
  | x :: xs => (insertSorted_perm le x (insSort le xs)).trans ((insSort_perm le xs).cons x)

theorem mem_insSort {α : Type} (le : α → α → Bool) {a : α} {l : List α} :
    a ∈ insSort le l ↔ a ∈ l :=
  (insSort_perm le l).mem_iff

theorem pairwise_insertSorted {α : Type} (le : α → α → Bool)
    (htot : ∀ a b, le a b = true ∨ le b a = true)
    (htrans : ∀ a b c, le a b = true → le b c = true → le a c = true) (x : α) :
    ∀ l : List α, l.Pairwise (fun a b => le a b = true) →
      (insertSorted le x l).Pairwise (fun a b => le a b = true)
  | [], _ => by simp [insertSorted]
  | y :: ys, h => by
    rw [List.pairwise_cons] at h
    obtain ⟨hy, hys⟩ := h
    unfold insertSorted
    by_cases hxy : le x y
    · rw [if_pos hxy, List.pairwise_cons]
      refine ⟨?_, List.pairwise_cons.mpr ⟨hy, hys⟩⟩
      intro b hb
      rcases List.mem_cons.mp hb with rfl | hb
      · exact hxy
      · exact htrans x y b hxy (hy b hb)
    · rw [if_neg hxy, List.pairwise_cons]
      have hyx : le y x = true := by
        rcases htot x y with h | h
        · exact absurd h hxy
        · exact h
      refine ⟨?_, pairwise_insertSorted le htot htrans x ys hys⟩
      intro b hb
      rcases (mem_insertSorted le b x ys).mp hb with rfl | hb
      · exact hyx
      · exact hy b hb

theorem insSort_pairwise {α : Type} (le : α → α → Bool)
    (htot : ∀ a b, le a b = true ∨ le b a = true)
    (htrans : ∀ a b c, le a b = true → le b c = true → le a c = true) :
    ∀ l : List α, (insSort le l).Pairwise (fun a b => le a b = true)
  | [] => List.Pairwise.nil
  | x :: xs => pairwise_insertSorted le htot htrans x _ (insSort_pairwise le htot htrans xs)

/-! ### Lemmas about the embedded string order -/

theorem lexLe_cons_iff {a b : Nat} {as bs : List Nat} :
    lexLe (a :: as) (b :: bs) = true ↔ a < b ∨ (a = b ∧ lexLe as bs = true) := by
  have h0 : lexLe (a :: as) (b :: bs) =
      (decide (a < b) || (!(decide (b < a)) && lexLe as bs)) := rfl
  rw [h0, Bool.or_eq_true, Bool.and_eq_true, Bool.not_eq_true', decide_eq_true_eq,
    decide_eq_false_iff_not]
  constructor
  · rintro (h | ⟨h1, h2⟩)
    · exact Or.inl h
    · rcases Nat.lt_trichotomy a b with h3 | h3 | h3
      · exact Or.inl h3
      · exact Or.inr ⟨h3, h2⟩
      · exact absurd h3 h1
  · rintro (h | ⟨rfl, h2⟩)
    · exact Or.inl h
    · exact Or.inr ⟨Nat.lt_irrefl a, h2⟩

theorem lexLe_total : ∀ a b : List Nat, lexLe a b = true ∨ lexLe b a = true
  | [], _ => Or.inl rfl
  | _ :: _, [] => Or.inr rfl
  | a :: as, b :: bs => by
    rw [lexLe_cons_iff, lexLe_cons_iff]
    rcases Nat.lt_trichotomy a b with h | h | h
    · exact Or.inl (Or.inl h)
    · rcases lexLe_total as bs with h2 | h2
      · exact Or.inl (Or.inr ⟨h, h2⟩)
      · exact Or.inr (Or.inr ⟨h.symm, h2⟩)
    · exact Or.inr (Or.inl h)

theorem lexLe_trans : ∀ a b c : List Nat,
    lexLe a b = true → lexLe b c = true → lexLe a c = true
  | [], _, _, _, _ => rfl
  | _ :: _, [], _, h, _ => by simp [lexLe] at h
  | _ :: _, _ :: _, [], _, h2 => by simp [lexLe] at h2
  | a :: as, b :: bs, c :: cs, h1, h2 => by
    rw [lexLe_cons_iff] at h1 h2 ⊢
    rcases h1 with h1 | ⟨rfl, h1⟩
    · rcases h2 with h2 | ⟨rfl, h2⟩
      · exact Or.inl (Nat.lt_trans h1 h2)
      · exact Or.inl h1
    · rcases h2 with h2 | ⟨rfl, h2⟩
      · exact Or.inl h2
      · exact Or.inr ⟨rfl, lexLe_trans as bs cs h1 h2⟩

theorem pyStrLe_total (s t : String) : pyStrLe s t = true ∨ pyStrLe t s = true :=
  lexLe_total _ _

theorem pyStrLe_trans (s t u : String) :
    pyStrLe s t = true → pyStrLe t u = true → pyStrLe s u = true :=
  lexLe_trans _ _ _

/-! ### Lemmas about deduplication and membership -/

theorem dedupFirst_aux {α : Type} [DecidableEq α] (a : α) :
    ∀ (l acc : List α),
      a ∈ l.foldl (fun acc x => if x ∈ acc then acc else acc ++ [x]) acc ↔
        a ∈ acc ∨ a ∈ l
  | [], acc => by simp
  | x :: xs, acc => by
    simp only [List.foldl_cons]
    rw [dedupFirst_aux a xs]
    by_cases hx : x ∈ acc
    · rw [if_pos hx]
      simp only [List.mem_cons]
      constructor
      · rintro (h | h)
        · exact Or.inl h
        · exact Or.inr (Or.inr h)
      · rintro (h | rfl | h)
        · exact Or.inl h
        · exact Or.inl hx
        · exact Or.inr h
    · rw [if_neg hx]
      simp only [List.mem_append, List.mem_singleton, List.mem_cons]
      tauto

theorem mem_dedupFirst {α : Type} [DecidableEq α] {a : α} {l : List α} :
    a ∈ dedupFirst l ↔ a ∈ l := by
  unfold dedupFirst
  rw [dedupFirst_aux a l []]
  simp

/-! ### Lemmas about Python's `list.remove` -/

theorem listRemove_some_of_mem (q : Quirk) :
    ∀ {l : List Quirk}, q ∈ l → ∃ l2, listRemove q l = some l2
  | [], h => absurd h (List.not_mem_nil q)
  | x :: xs, h => by
    unfold listRemove
    by_cases hx : x = q
    · exact ⟨xs, by rw [if_pos hx]⟩
    · have hq : q ∈ xs := by
        rcases List.mem_cons.mp h with rfl | h2
        · exact absurd rfl hx
        · exact h2
      obtain ⟨l2, hl2⟩ := listRemove_some_of_mem q hq
      exact ⟨x :: l2, by rw [if_neg hx, hl2]; rfl⟩

theorem listRemove_sub (q : Quirk) :
    ∀ {l l2 : List Quirk}, listRemove q l = some l2 → ∀ a ∈ l2, a ∈ l
  | [], _, h => by simp [listRemove] at h
  | x :: xs, l2, h => by
    unfold listRemove at h
    by_cases hx : x = q
    · rw [if_pos hx] at h
      injection h with h
      subst h
      intro a ha
      exact List.mem_cons_of_mem x ha
    · rw [if_neg hx] at h
      cases hrec : listRemove q xs with
      | none => rw [hrec] at h; simp at h
      | some ys =>
        rw [hrec] at h
        simp only [Option.map_some'] at h
        injection h with h
        subst h
        intro a ha
        rcases List.mem_cons.mp ha with rfl | ha
        · exact List.mem_cons_self _ _
        · exact List.mem_cons_of_mem x (listRemove_sub q hrec a ha)

theorem listRemove_nodup (q : Quirk) :
    ∀ {l l2 : List Quirk}, listRemove q l = some l2 → l.Nodup → l2.Nodup
  | [], _, h, _ => by simp [listRemove] at h
  | x :: xs, l2, h, hnd => by
    rw [List.nodup_cons] at hnd
    unfold listRemove at h
    by_cases hx : x = q
    · rw [if_pos hx] at h
      injection h with h
      subst h
      exact hnd.2
    · rw [if_neg hx] at h
      cases hrec : listRemove q xs with
      | none => rw [hrec] at h; simp at h
      | some ys =>
        rw [hrec] at h
        simp only [Option.map_some'] at h
        injection h with h
        subst h
        rw [List.nodup_cons]
        exact ⟨fun hmem => hnd.1 (listRemove_sub q hrec x hmem),
          listRemove_nodup q hrec hnd.2⟩

theorem listRemove_not_mem (q : Quirk) :
    ∀ {l l2 : List Quirk}, listRemove q l = some l2 → l.Nodup → q ∉ l2
  | [], _, h, _ => by simp [listRemove] at h
  | x :: xs, l2, h, hnd => by
    rw [List.nodup_cons] at hnd
    unfold listRemove at h
    by_cases hx : x = q
    · rw [if_pos hx] at h
      injection h with h
      subst h
      subst hx
      exact hnd.1
    · rw [if_neg hx] at h
      cases hrec : listRemove q xs with
      | none => rw [hrec] at h; simp at h
      | some ys =>
        rw [hrec] at h
        simp only [Option.map_some'] at h
        injection h with h
        subst h
        intro hmem
        rcases List.mem_cons.mp hmem with rfl | hmem
        · exact hx rfl
        · exact listRemove_not_mem q hrec hnd.2 hmem

/-! ### Lemmas about `Option`-valued `mapM` and `foldlM` -/

theorem optionMapM_eq_none_of_mem {α β : Type} (f : α → Option β) :
    ∀ {l : List α} {a : α}, a ∈ l → f a = none → optionMapM f l = none
  | [], a, h, _ => absurd h (List.not_mem_nil a)
  | x :: xs, a, h, hfa => by
    unfold optionMapM
    rcases List.mem_cons.mp h with rfl | h2
    · rw [hfa]
    · cases hfx : f x with
      | none => rfl
      | some y =>
        rw [optionMapM_eq_none_of_mem f h2 hfa]

theorem optionFoldlM_eq_none_of_mem {α σ : Type} (f : σ → α → Option σ) (bad : α)
    (hbad : ∀ s, f s bad = none) :
    ∀ (l : List α) (s : σ), bad ∈ l → optionFoldlM f s l = none
  | [], _, h => absurd h (List.not_mem_nil bad)
  | x :: xs, s, h => by
    unfold optionFoldlM
    rcases List.mem_cons.mp h with rfl | h2
    · rw [hbad s]
    · cases hfx : f s x with
      | none => rfl
      | some s2 =>
        exact optionFoldlM_eq_none_of_mem f bad hbad xs s2 h2

theorem forall₂_mem_right {α β : Type} {R : α → β → Prop} :
    ∀ {l1 : List α} {l2 : List β}, List.Forall₂ R l1 l2 → ∀ b ∈ l2, ∃ a ∈ l1, R a b := by
  intro l1 l2 h
  induction h with
  | nil =>
    intro b hb
    exact absurd hb (List.not_mem_nil b)
  | cons hr _ ih =>
    intro b hb
    rcases List.mem_cons.mp hb with rfl | hb
    · exact ⟨_, List.mem_cons_self _ _, hr⟩
    · obtain ⟨a, ha, hR⟩ := ih b hb
      exact ⟨a, List.mem_cons_of_mem _ ha, hR⟩

theorem mapM_removeAll (q : Quirk) :
    ∀ (d : List (String × List Quirk)), (∀ p ∈ d, q ∈ p.2) →
      ∃ d2, optionMapM (fun p => (listRemove q p.2).map (fun l => (p.1, l))) d = some d2
        ∧ List.Forall₂ (fun p p2 => p.1 = p2.1 ∧ listRemove q p.2 = some p2.2) d d2
  | [], _ => ⟨[], rfl, List.Forall₂.nil⟩
  | p :: ds, h => by
    obtain ⟨l2, hl2⟩ := listRemove_some_of_mem q (h p (List.mem_cons_self p ds))
    obtain ⟨ds2, hds2, hF⟩ :=
      mapM_removeAll q ds (fun p2 hp2 => h p2 (List.mem_cons_of_mem p hp2))
    refine ⟨(p.1, l2) :: ds2, ?_, List.Forall₂.cons ⟨rfl, hl2⟩ hF⟩
    simp only [optionMapM, hl2, Option.map_some', hds2]

/-! ### The fold invariants of the 1-D reduction -/

theorem bmStep_shared {d : List (String × List Quirk)} {s : List Quirk} {q : Quirk}
    {d2 : List (String × List Quirk)} (hguard : ∀ p ∈ d, q ∈ p.2)
    (hmap : optionMapM (fun p => (listRemove q p.2).map (fun l => (p.1, l))) d = some d2) :
    bmStep (some (d, s)) q = some (d2, s ++ [q]) := by
  show (if ∀ p ∈ d, q ∈ p.2 then
      match optionMapM (fun p => (listRemove q p.2).map (fun l => (p.1, l))) d with
      | none => none
      | some d2 => some (d2, s ++ [q])
    else some (d, s)) = some (d2, s ++ [q])
  rw [if_pos hguard, hmap]

theorem bmStep_skip {d : List (String × List Quirk)} {s : List Quirk} {q : Quirk}
    (hguard : ¬ ∀ p ∈ d, q ∈ p.2) :
    bmStep (some (d, s)) q = some (d, s) := by
  show (if ∀ p ∈ d, q ∈ p.2 then
      match optionMapM (fun p => (listRemove q p.2).map (fun l => (p.1, l))) d with
      | none => none
      | some d2 => some (d2, s ++ [q])
    else some (d, s)) = some (d, s)
  rw [if_neg hguard]

theorem bm_fold_total :
    ∀ (pool : List Quirk) (d : List (String × List Quirk)) (s : List Quirk),
      ∃ r, pool.foldl bmStep (some (d, s)) = some r
  | [], d, s => ⟨(d, s), rfl⟩
  | q :: rest, d, s => by
    simp only [List.foldl_cons]
    by_cases hguard : ∀ p ∈ d, q ∈ p.2
    · obtain ⟨d2, hmap, _⟩ := mapM_removeAll q d hguard
      rw [bmStep_shared hguard hmap]
      exact bm_fold_total rest d2 (s ++ [q])
    · rw [bmStep_skip hguard]
      exact bm_fold_total rest d s

theorem bm_fold_inv :
    ∀ (pool : List Quirk) (d : List (String × List Quirk)) (s : List Quirk),
      (∀ p ∈ d, p.2.Nodup) → (∀ q ∈ s, ∀ p ∈ d, q ∉ p.2) →
      ∃ d2 s2, pool.foldl bmStep (some (d, s)) = some (d2, s2)
        ∧ (∀ p ∈ d2, p.2.Nodup) ∧ (∀ q ∈ s2, ∀ p ∈ d2, q ∉ p.2)
  | [], d, s, h1, h2 => ⟨d, s, rfl, h1, h2⟩
  | q :: rest, d, s, h1, h2 => by
    simp only [List.foldl_cons]
    by_cases hguard : ∀ p ∈ d, q ∈ p.2
    · obtain ⟨d2, hmap, hF⟩ := mapM_removeAll q d hguard
      rw [bmStep_shared hguard hmap]
      have hmemF := forall₂_mem_right hF
      refine bm_fold_inv rest d2 (s ++ [q]) ?_ ?_
      · intro p2 hp2
        obtain ⟨p, hp, _, hrem⟩ := hmemF p2 hp2
        exact listRemove_nodup q hrem (h1 p hp)
      · intro q2 hq2 p2 hp2
        obtain ⟨p, hp, _, hrem⟩ := hmemF p2 hp2
        rcases List.mem_append.mp hq2 with hq2 | hq2
        · intro hmem
          exact h2 q2 hq2 p hp (listRemove_sub q hrem q2 hmem)
        · rw [List.mem_singleton] at hq2
          rw [hq2]
          exact listRemove_not_mem q hrem (h1 p hp)
    · rw [bmStep_skip hguard]
      exact bm_fold_inv rest d s h1 h2

theorem bm_fold_fix (d : List (String × List Quirk)) :
    ∀ (pool : List Quirk) (s : List Quirk), (∀ q ∈ pool, ¬ ∀ p ∈ d, q ∈ p.2) →
      pool.foldl bmStep (some (d, s)) = some (d, s)
  | [], _, _ => rfl
  | q :: rest, s, h => by
    simp only [List.foldl_cons]
    rw [bmStep_skip (h q (List.mem_cons_self q rest))]
    exact bm_fold_fix d rest s (fun q2 hq2 => h q2 (List.mem_cons_of_mem q hq2))

/-! ### Arithmetic facts about truncation toward zero -/

theorem cast_natDiv_le (a b : Nat) (hb : 0 < b) :
    ((a / b : Nat) : ℚ) ≤ (a : ℚ) / (b : ℚ) := by
  have hbq : (0 : ℚ) < (b : ℚ) := by exact_mod_cast hb
  rw [le_div_iff₀ hbq]
  exact_mod_cast Nat.div_mul_le_self a b

theorem cast_natDiv_gt (a b : Nat) (hb : 0 < b) :
    (a : ℚ) / (b : ℚ) < ((a / b : Nat) : ℚ) + 1 := by
  have hbq : (0 : ℚ) < (b : ℚ) := by exact_mod_cast hb
  rw [div_lt_iff₀ hbq]
  have h1 : (b : ℚ) * ((a / b : Nat) : ℚ) + ((a % b : Nat) : ℚ) = (a : ℚ) := by
    exact_mod_cast Nat.div_add_mod a b
  have h2 : ((a % b : Nat) : ℚ) < (b : ℚ) := by exact_mod_cast Nat.mod_lt a hb
  nlinarith [h1, h2]

theorem ratDen_cast_pow (k : Nat) : ((10 : ℚ)) ^ k = ((10 ^ k : Nat) : ℚ) := by
  push_cast
  ring

theorem pyTrunc_bounds (m : Int) (k : Nat) :
    |((pyTrunc (m, k) : Int) : ℚ)| ≤ |ratValue (m, k)|
    ∧ |ratValue (m, k)| < |((pyTrunc (m, k) : Int) : ℚ)| + 1 := by
  have hb : 0 < 10 ^ k := pow_pos (by norm_num) k
  have hbq : (0 : ℚ) < ((10 ^ k : Nat) : ℚ) := by exact_mod_cast hb
  by_cases hm : m < 0
  · have hpt : pyTrunc (m, k) = -(((-m).toNat / 10 ^ k : Nat) : Int) := by
      unfold pyTrunc
      rw [if_pos hm]
    have hcast : (((-m).toNat : ℕ) : ℚ) = -(m : ℚ) := by
      have h1 : (((-m).toNat : ℕ) : Int) = -m := Int.toNat_of_nonneg (by omega)
      exact_mod_cast h1
    have habs : |((pyTrunc (m, k) : Int) : ℚ)| = ((((-m).toNat / 10 ^ k : Nat)) : ℚ) := by
      rw [hpt, Int.cast_neg, abs_neg, Int.cast_natCast, abs_of_nonneg (Nat.cast_nonneg _)]
    have hrv : |ratValue (m, k)| = (((-m).toNat : ℕ) : ℚ) / ((10 ^ k : Nat) : ℚ) := by
      unfold ratValue
      rw [abs_div, ratDen_cast_pow k, abs_of_pos hbq,
        abs_of_neg (show (m : ℚ) < 0 by exact_mod_cast hm), ← hcast]
    rw [habs, hrv]
    exact ⟨cast_natDiv_le _ _ hb, cast_natDiv_gt _ _ hb⟩
  · push_neg at hm
    have hpt : pyTrunc (m, k) = ((m.toNat / 10 ^ k : Nat) : Int) := by
      unfold pyTrunc
      rw [if_neg (by omega)]
    have hcast : ((m.toNat : ℕ) : ℚ) = (m : ℚ) := by
      have h1 : ((m.toNat : ℕ) : Int) = m := Int.toNat_of_nonneg hm
      exact_mod_cast h1
    have habs : |((pyTrunc (m, k) : Int) : ℚ)| = (((m.toNat / 10 ^ k : Nat)) : ℚ) := by
      rw [hpt, Int.cast_natCast, abs_of_nonneg (Nat.cast_nonneg _)]
    have hrv : |ratValue (m, k)| = ((m.toNat : ℕ) : ℚ) / ((10 ^ k : Nat) : ℚ) := by
      unfold ratValue
      rw [abs_div, ratDen_cast_pow k, abs_of_pos hbq,
        abs_of_nonneg (show (0 : ℚ) ≤ (m : ℚ) by exact_mod_cast hm), ← hcast]
    rw [habs, hrv]
    exact ⟨cast_natDiv_le _ _ hb, cast_natDiv_gt _ _ hb⟩

theorem truncFrac_bounds (m : Int) (b : Nat) (hb : 0 < b) :
    |((truncFrac m b : Int) : ℚ)| ≤ |(m : ℚ) / (b : ℚ)|
    ∧ |(m : ℚ) / (b : ℚ)| < |((truncFrac m b : Int) : ℚ)| + 1 := by
  have hbq : (0 : ℚ) < (b : ℚ) := by exact_mod_cast hb
  by_cases hm : m < 0
  · have hpt : truncFrac m b = -(((-m).toNat / b : Nat) : Int) := by
      unfold truncFrac
      rw [if_pos hm]
    have hcast : (((-m).toNat : ℕ) : ℚ) = -(m : ℚ) := by
      have h1 : (((-m).toNat : ℕ) : Int) = -m := Int.toNat_of_nonneg (by omega)
      exact_mod_cast h1
    have habs : |((truncFrac m b : Int) : ℚ)| = ((((-m).toNat / b : Nat)) : ℚ) := by
      rw [hpt, Int.cast_neg, abs_neg, Int.cast_natCast, abs_of_nonneg (Nat.cast_nonneg _)]
    have hrv : |(m : ℚ) / (b : ℚ)| = (((-m).toNat : ℕ) : ℚ) / (b : ℚ) := by
      rw [abs_div, abs_of_pos hbq,
        abs_of_neg (show (m : ℚ) < 0 by exact_mod_cast hm), ← hcast]
    rw [habs, hrv]
    exact ⟨cast_natDiv_le _ _ hb, cast_natDiv_gt _ _ hb⟩
  · push_neg at hm
    have hpt : truncFrac m b = ((m.toNat / b : Nat) : Int) := by
      unfold truncFrac
      rw [if_neg (by omega)]
    have hcast : ((m.toNat : ℕ) : ℚ) = (m : ℚ) := by
      have h1 : ((m.toNat : ℕ) : Int) = m := Int.toNat_of_nonneg hm
      exact_mod_cast h1
    have habs : |((truncFrac m b : Int) : ℚ)| = (((m.toNat / b : Nat)) : ℚ) := by
      rw [hpt, Int.cast_natCast, abs_of_nonneg (Nat.cast_nonneg _)]
    have hrv : |(m : ℚ) / (b : ℚ)| = ((m.toNat : ℕ) : ℚ) / (b : ℚ) := by
      rw [abs_div, abs_of_pos hbq,
        abs_of_nonneg (show (0 : ℚ) ≤ (m : ℚ) by exact_mod_cast hm), ← hcast]
    rw [habs, hrv]
    exact ⟨cast_natDiv_le _ _ hb, cast_natDiv_gt _ _ hb⟩

theorem f64Trunc_bounds (p : Int × Int) :
    |((f64TruncToInt p : Int) : ℚ)| ≤ |f64Value p|
    ∧ |f64Value p| < |((f64TruncToInt p : Int) : ℚ)| + 1 := by
  by_cases ht : 0 ≤ p.2
  · have heq : |((f64TruncToInt p : Int) : ℚ)| = |f64Value p| := by
      unfold f64TruncToInt f64Value
      rw [if_pos ht, if_pos ht]
      push_cast
      ring_nf
    exact ⟨heq.le, by rw [heq]; linarith [abs_nonneg (f64Value p)]⟩
  · have h1 : f64TruncToInt p = truncFrac p.1 (2 ^ (-p.2).toNat) := by
      unfold f64TruncToInt
      rw [if_neg ht]
    have h2 : f64Value p = (p.1 : ℚ) / ((2 ^ (-p.2).toNat : Nat) : ℚ) := by
      unfold f64Value
      rw [if_neg ht]
      push_cast
      ring
    rw [h1, h2]
    exact truncFrac_bounds p.1 (2 ^ (-p.2).toNat) (pow_pos (by norm_num) _)

theorem f64Trunc_sign (p : Int × Int) :
    (0 ≤ p.1 → 0 ≤ f64TruncToInt p) ∧ (p.1 ≤ 0 → f64TruncToInt p ≤ 0) := by
  unfold f64TruncToInt
  by_cases ht : 0 ≤ p.2
  · rw [if_pos ht]
    have h2 : (0 : Int) ≤ 2 ^ p.2.toNat := by positivity
    constructor
    · intro h
      exact mul_nonneg h h2
    · intro h
      have h3 := mul_nonneg (neg_nonneg.mpr h) h2
      rw [neg_mul] at h3
      linarith
  · rw [if_neg ht]
    unfold truncFrac
    constructor
    · intro h
      rw [if_neg (by omega)]
      exact Int.natCast_nonneg _
    · intro h
      by_cases hneg : p.1 < 0
      · rw [if_pos hneg]
        exact neg_nonpos.mpr (Int.natCast_nonneg _)
      · have h0 : p.1 = 0 := by omega
        rw [if_neg hneg, h0]
        simp

theorem f64_exact_125 :
    f64Value (f64Mul100 (ratToF64 125 3)) = 100 * ratValue (125, 3) := by
  have h1 : f64Mul100 (ratToF64 125 3) = (7036874417766400, -49) := by decide
  rw [h1]
  unfold f64Value ratValue
  have h2 : Int.toNat 49 = 49 := rfl
  norm_num [h2]

/-! ### Small helper lemmas about the embedded operations -/

theorem map_self {α : Type} (f : α → α) :
    ∀ l : List α, (∀ a ∈ l, f a = a) → l.map f = l
  | [], _ => rfl
  | x :: xs, h => by
    rw [List.map_cons, h x (List.mem_cons_self x xs),
      map_self f xs (fun a ha => h a (List.mem_cons_of_mem x ha))]

theorem reducePodAgainst_nil (p : Omnipod) : reducePodAgainst [] p = p := by
  unfold reducePodAgainst
  have h : p.quirks.filter (fun q => decide (q ∉ ([] : List Quirk))) = p.quirks := by
    rw [List.filter_eq_self]
    intro a _
    simp
  rw [h]

theorem Component.mem_all : ∀ c : Component, c ∈ Component.all := by
  intro c
  cases c <;> decide

theorem mkQuirk_hardpoints_name (v : String) :
    mkQuirk ⟨hardpointsQuirkName, v⟩ = some ⟨hardpointsQuirkName, v⟩ := rfl

theorem mem_sortedVariants {pods : List Omnipod} {v : String} :
    v ∈ sortedVariants pods ↔ v ∈ pods.map (fun p => p.variant) := by
  unfold sortedVariants
  rw [mem_insSort, mem_dedupFirst]

theorem candidates_no_hardpoints {col : List Omnipod} {q : Quirk}
    (h : q ∈ columnCandidates col) : strContains q.name "HARDPOINTS" = false := by
  unfold columnCandidates at h
  rw [mem_dedupFirst, List.mem_flatten] at h
  obtain ⟨l, hl, hq⟩ := h
  rw [List.mem_map] at hl
  obtain ⟨p, hp, rfl⟩ := hl
  rw [List.mem_filter] at hq
  have h2 := hq.2
  rwa [Bool.not_eq_true'] at h2

theorem shared_no_hardpoints {col : List Omnipod} {q : Quirk}
    (h : q ∈ sharedForColumn col) : strContains q.name "HARDPOINTS" = false := by
  unfold sharedForColumn at h
  rw [mem_insSort, List.mem_filter] at h
  exact candidates_no_hardpoints h.1

theorem addHardpoint_missile_key {hp : Hardpoints} {r : RawHardpoint}
    (h : pyLower r.type = "missile") : addHardpoint hp r = none := by
  simp only [addHardpoint, h]
  rfl

/-! ### Claim theorems -/

/-- Claim C1, counterexample to the claim as stated: in the 1-D reduction,
when variant `A` carries the shared quirk twice and variant `B` once, the
quirk is promoted to the shared list, removed once from each list, and the
second pool occurrence is no longer common — so `cqAngle` remains in `A`'s
remaining list *and* sits in the shared list, violating the claimed
invariant in the duplicate case. -/
theorem c1_counterexample :
    battlemechReduce [("A", [cqAngle, cqAngle]), ("B", [cqAngle])] =
      some ([("A", [cqAngle]), ("B", [])], [cqAngle]) := by
  decide

/-- Claim C1 (amended): the reduction never removes beyond what is present
(it always succeeds); when every variant's list is duplicate-free, no quirk
is in both a variant's remaining 1-D list and the shared list; and in the
2-D per-column reduction no quirk is in both a pod's remaining list and the
column's shared cell, unconditionally. -/
theorem c1_no_quirk_in_remaining_and_shared :
    (∀ d : List (String × List Quirk), ∃ r, battlemechReduce d = some r)
    ∧ (∀ d : List (String × List Quirk), (∀ p ∈ d, p.2.Nodup) →
        ∃ d2 s2, battlemechReduce d = some (d2, s2)
          ∧ ∀ p ∈ d2, ∀ q ∈ p.2, q ∉ s2)
    ∧ (∀ col : List Omnipod, ∀ p ∈ (reduceColumn col).1, ∀ q ∈ p.quirks,
        q ∉ (reduceColumn col).2) := by
  refine ⟨?_, ?_, ?_⟩
  · intro d
    exact bm_fold_total (bmPool d) d []
  · intro d h1
    obtain ⟨d2, s2, heq, _, hinv⟩ :=
      bm_fold_inv (bmPool d) d [] h1
        (fun q hq => absurd hq (List.not_mem_nil q))
    exact ⟨d2, s2, heq, fun p hp q hq hqs => hinv q hqs p hp hq⟩
  · intro col p hp q hq
    simp only [reduceColumn] at hp ⊢
    rw [List.mem_map] at hp
    obtain ⟨p0, hp0, rfl⟩ := hp
    simp only [reducePodAgainst] at hq
    rw [List.mem_filter] at hq
    exact of_decide_eq_true hq.2

/-- Witness for C1's amended theorem at concrete inputs. -/
theorem c1_witness :
    (∃ r, battlemechReduce [("A", [cqAngle]), ("B", [cqPlain])] = some r)
    ∧ (∃ d2 s2, battlemechReduce [("A", [cqAngle]), ("B", [cqPlain])] = some (d2, s2)
        ∧ ∀ p ∈ d2, ∀ q ∈ p.2, q ∉ s2)
    ∧ cqAngle ∉ (reduceColumn [podW1, podW2]).2 :=
  ⟨c1_no_quirk_in_remaining_and_shared.1 _,
   c1_no_quirk_in_remaining_and_shared.2.1 _ (by decide),
   c1_no_quirk_in_remaining_and_shared.2.2 [podW1, podW2] podW1 (by decide) cqAngle
     (by decide)⟩

/-- Claim C2 (confirmed): a quirk whose name contains `HARDPOINTS` is never
a shared candidate of a column, never in a column's shared quirks, never in
any cell of the trailing shared row, and in particular the synthetic
hardpoints quirk is never shared, whatever value it carries and however
many pods carry it. -/
theorem c2_hardpoints_never_shared :
    (∀ (col : List Omnipod) (q : Quirk), q ∈ columnCandidates col →
        strContains q.name "HARDPOINTS" = false)
    ∧ (∀ (col : List Omnipod) (q : Quirk), q ∈ sharedForColumn col →
        strContains q.name "HARDPOINTS" = false)
    ∧ (∀ (body : List (String × List Omnipod)) (cell : List Quirk) (q : Quirk),
        cell ∈ omniSharedCells body → q ∈ cell →
        strContains q.name "HARDPOINTS" = false)
    ∧ (∀ (col : List Omnipod) (v : String),
        (⟨hardpointsQuirkName, v⟩ : Quirk) ∉ sharedForColumn col) := by
  refine ⟨fun col q h => candidates_no_hardpoints h,
    fun col q h => shared_no_hardpoints h, ?_, ?_⟩
  · intro body cell q hcell hq
    unfold omniSharedCells at hcell
    rw [List.mem_map] at hcell
    obtain ⟨col, _, rfl⟩ := hcell
    exact shared_no_hardpoints hq
  · intro col v hmem
    have h : strContains hardpointsQuirkName "HARDPOINTS" = false :=
      shared_no_hardpoints hmem
    exact absurd h (by decide)

/-- Witness for C2 at a concrete column whose two pods share `cqPlain`. -/
theorem c2_witness :
    strContains cqPlain.name "HARDPOINTS" = false
    ∧ (⟨hardpointsQuirkName, "v"⟩ : Quirk) ∉ sharedForColumn [podS1, podS2] :=
  ⟨c2_hardpoints_never_shared.2.1 [podS1, podS2] cqPlain (by decide),
   c2_hardpoints_never_shared.2.2.2 [podS1, podS2] "v"⟩

/-- Claim C3 (confirmed): a name containing none of the seven non-percent
keywords turns value `"0.25"` into `"25%"`; a name containing any keyword
keeps any raw value verbatim. -/
theorem c3_percent_conversion :
    (∀ name : String, (∀ kw ∈ non_percent_quirks, strContains name kw = false) →
        mkQuirk ⟨name, "0.25"⟩ = some ⟨name, "25%"⟩)
    ∧ (∀ name v kw : String, kw ∈ non_percent_quirks → strContains name kw = true →
        mkQuirk ⟨name, v⟩ = some ⟨name, v⟩) := by
  constructor
  · intro name h
    have hany : (non_percent_quirks.any (fun item => strContains name item)) = false := by
      rw [List.any_eq_false]
      intro kw hkw
      simp [h kw hkw]
    have hpf : pyFloatParse "0.25" = some (25, 2) := by decide
    simp only [mkQuirk, hany, Bool.not_false, if_true, hpf, Option.map_some']
    have hts : toString (pyTrunc ((25 : Int) * 100, 2)) ++ "%" = "25%" := by decide
    rw [hts]
  · intro name v kw hkw hc
    have hany : (non_percent_quirks.any (fun item => strContains name item)) = true :=
      List.any_eq_true.mpr ⟨kw, hkw, hc⟩
    simp [mkQuirk, hany]

/-- Witness for C3: a keyword-free name converts, a `JUMP` name does not. -/
theorem c3_witness :
    mkQuirk ⟨"TORSO TURN RATE", "0.25"⟩ = some ⟨"TORSO TURN RATE", "25%"⟩
    ∧ mkQuirk ⟨"JUMP JETS", "0.25"⟩ = some ⟨"JUMP JETS", "0.25"⟩ :=
  ⟨c3_percent_conversion.1 "TORSO TURN RATE" (by decide),
   c3_percent_conversion.2 "JUMP JETS" "0.25" "JUMP" (by decide) (by decide)⟩

/-- Claim C4, counterexample to the claim as stated: the synthetic
hardpoints quirk is appended *after* the pod's quirks were sorted, so the
final list is not sorted by name — the synthetic name starts with a newline
and compares below `TORSO TWIST ANGLE` yet sits last; its name is the
markup-wrapped label, not the bare string `HARDPOINTS`. -/
theorem c4_counterexample :
    mkOmnipod ⟨"head", "PRIME", [⟨"TORSO TWIST ANGLE", "5"⟩], [⟨"beam", 1⟩]⟩ =
      some ⟨.hd, "PRIME",
        [cqAngle, ⟨hardpointsQuirkName, "<font color=\"orange\">1E</font>"⟩]⟩
    ∧ ¬ List.Pairwise (fun a b : Quirk => pyStrLe a.name b.name = true)
        [cqAngle, ⟨hardpointsQuirkName, "<font color=\"orange\">1E</font>"⟩] := by
  constructor <;> decide

/-- Claim C4 (amended): when all counts are zero nothing is appended;
otherwise exactly one synthetic quirk, named by the markup-wrapped
`HARDPOINTS` label, is appended at the end of the already-sorted list (so
the list need not remain sorted), and its value lists the nonzero counts in
the fixed kind order, as the beam-then-ballistic example shows. -/
theorem c4_hardpoints_fold :
    (∀ (quirks : List Quirk) (hp : Hardpoints), hp.allZero = true →
        add_hardpoints_to_quirks quirks hp = some quirks)
    ∧ (∀ (quirks : List Quirk) (hp : Hardpoints), hp.allZero = false →
        add_hardpoints_to_quirks quirks hp =
          some (quirks ++ [⟨hardpointsQuirkName, hardpointString hp⟩]))
    ∧ hardpointString ⟨2, 0, 1, 0, 0⟩ =
        "<font color=\"orange\">2E</font>, <font color=\"purple\">1B</font>" := by
  refine ⟨?_, ?_, by decide⟩
  · intro quirks hp h
    simp [add_hardpoints_to_quirks, h]
  · intro quirks hp h
    simp [add_hardpoints_to_quirks, h, mkQuirk_hardpoints_name]

/-- Witness for C4's amended theorem at concrete hardpoint counts. -/
theorem c4_witness :
    add_hardpoints_to_quirks [cqAngle] Hardpoints.init = some [cqAngle]
    ∧ add_hardpoints_to_quirks [] ⟨1, 0, 0, 0, 0⟩ =
        some [⟨hardpointsQuirkName, hardpointString ⟨1, 0, 0, 0, 0⟩⟩] :=
  ⟨c4_hardpoints_fold.1 [cqAngle] Hardpoints.init (by decide),
   c4_hardpoints_fold.2.1 [] ⟨1, 0, 0, 0, 0⟩ (by decide)⟩

/-- Claim C5, counterexample to the claim as stated: the code's counts dict
only knows the misspelled key `missle`, so a record with the correctly
spelled type `missile` raises a `KeyError` instead of incrementing the
missile count, while `Missle` succeeds. -/
theorem c5_counterexample :
    addHardpoint Hardpoints.init ⟨"missile", 1⟩ = none
    ∧ Omnipod.get_hardpoints [⟨"missile", 1⟩] = none
    ∧ addHardpoint Hardpoints.init ⟨"Missle", 1⟩ = some ⟨0, 1, 0, 0, 0⟩ := by
  refine ⟨by decide, by decide, by decide⟩

/-- Claim C5 (amended): the five recognized kinds, matched on the lowercased
type string, are `beam`, `missle` (sic), `ballistic`, `ams` and `ecm`, and
each such record adds its integer count to that kind's total; a record
whose lowercased type is `missile` makes the whole fold fail. -/
theorem c5_hardpoint_kind_keys :
    (∀ (hp : Hardpoints) (t : String) (n : Int), pyLower t = "beam" →
        addHardpoint hp ⟨t, n⟩ = some { hp with beam := hp.beam + n })
    ∧ (∀ (hp : Hardpoints) (t : String) (n : Int), pyLower t = "missle" →
        addHardpoint hp ⟨t, n⟩ = some { hp with missle := hp.missle + n })
    ∧ (∀ (hp : Hardpoints) (t : String) (n : Int), pyLower t = "ballistic" →
        addHardpoint hp ⟨t, n⟩ = some { hp with ballistic := hp.ballistic + n })
    ∧ (∀ (hp : Hardpoints) (t : String) (n : Int), pyLower t = "ams" →
        addHardpoint hp ⟨t, n⟩ = some { hp with ams := hp.ams + n })
    ∧ (∀ (hp : Hardpoints) (t : String) (n : Int), pyLower t = "ecm" →
        addHardpoint hp ⟨t, n⟩ = some { hp with ecm := hp.ecm + n })
    ∧ (∀ (records : List RawHardpoint) (r : RawHardpoint), r ∈ records →
        pyLower r.type = "missile" → Omnipod.get_hardpoints records = none) := by
  refine ⟨?_, ?_, ?_, ?_, ?_, ?_⟩
  · intro hp t n h
    simp only [addHardpoint, h]
  · intro hp t n h
    simp only [addHardpoint, h]
  · intro hp t n h
    simp only [addHardpoint, h]
  · intro hp t n h
    simp only [addHardpoint, h]
  · intro hp t n h
    simp only [addHardpoint, h]
  · intro records r hr h
    unfold Omnipod.get_hardpoints
    exact optionFoldlM_eq_none_of_mem addHardpoint r
      (fun s => addHardpoint_missile_key h) records Hardpoints.init hr

/-- Witness for C5's amended theorem: an uppercase `Beam` record adds to the
beam count, and a `missile` record aborts the fold. -/
theorem c5_witness :
    addHardpoint Hardpoints.init ⟨"Beam", 2⟩ =
      some { Hardpoints.init with beam := Hardpoints.init.beam + 2 }
    ∧ Omnipod.get_hardpoints [⟨"missile", 1⟩] = none :=
  ⟨c5_hardpoint_kind_keys.1 Hardpoints.init "Beam" 2 (by decide),
   c5_hardpoint_kind_keys.2.2.2.2.2 [⟨"missile", 1⟩] ⟨"missile", 1⟩ (by decide)
     (by decide)⟩

/-- Claim C6 (confirmed): if one of the unit's variants lacks a pod for one
of the eight components, building the 2-D matrix fails with a lookup error
(`none`) instead of producing a grid with a missing cell. -/
theorem c6_missing_pod_fatal :
    ∀ (name : String) (pods : List Omnipod) (v : String) (c : Component),
      v ∈ pods.map (fun p => p.variant) → find_pod pods v c = none →
      omniBuildMatrix name pods = none := by
  intro name pods v c hv hc
  have hrow : omniRow pods v = none := by
    unfold omniRow
    rw [optionMapM_eq_none_of_mem (fun c2 => find_pod pods v c2)
      (Component.mem_all c) hc]
    rfl
  have hbody : omniBody pods = none := by
    unfold omniBody
    exact optionMapM_eq_none_of_mem (omniRow pods) (mem_sortedVariants.mpr hv) hrow
  unfold omniBuildMatrix
  rw [hbody]
  rfl

/-- Witness for C6: one head-only pod set fails to build. -/
theorem c6_witness : omniBuildMatrix "X" [podA] = none :=
  c6_missing_pod_fatal "X" [podA] "A" .ra (by decide) (by decide)

/-- Claim C7, counterexample to the claim as stated: the trailing row's
first cell is the literal `<b>SHARED</b>`, not the bare string `SHARED`. -/
theorem c7_counterexample :
    Battlemech.build_matrix "X" [("A", [])] =
      some [["X", "Quirks"], ["A", "--"], ["<b>SHARED</b>", "--"]]
    ∧ "<b>SHARED</b>" ≠ "SHARED" := by
  constructor <;> decide

/-- Claim C7 (amended): the finalized Chassis-style matrix is a
`[unit_name, "Quirks"]` header, then one `[variant, remaining]` row per
variant in ascending variant-name order (a permutation of the reduced
dict), then one trailing row headed by the bold-wrapped `SHARED` label and
the shared quirks. -/
theorem c7_battlemech_matrix_layout :
    ∀ (name : String) (d : List (String × List Quirk)) (M : List (List String)),
      Battlemech.build_matrix name d = some M →
      ∃ d2 sh, battlemechReduce d = some (d2, sh)
        ∧ M.head? = some [name, "Quirks"]
        ∧ M.getLast? = some ["<b>SHARED</b>", quirksString sh]
        ∧ (M.drop 1).dropLast =
            (insSort pairLeB d2).map (fun p => [p.1, quirksString p.2])
        ∧ (insSort pairLeB d2).Pairwise (fun a b => pairLeB a b = true)
        ∧ (insSort pairLeB d2).Perm d2 := by
  intro name d M h
  unfold Battlemech.build_matrix at h
  rw [Option.map_eq_some'] at h
  obtain ⟨r, hr, hM⟩ := h
  obtain ⟨d2, sh⟩ := r
  subst hM
  refine ⟨d2, sh, hr, rfl, ?_, ?_, ?_, ?_⟩
  · rw [← List.cons_append, List.getLast?_concat]
  · simp only [List.drop_succ_cons, List.drop_zero]
    rw [List.dropLast_concat]
  · exact insSort_pairwise pairLeB (fun a b => pyStrLe_total a.1 b.1)
      (fun a b c => pyStrLe_trans a.1 b.1 c.1) d2
  · exact insSort_perm pairLeB d2

/-- Witness for C7's amended theorem at a concrete two-variant unit whose
rows come out in ascending order `A`, `B`. -/
theorem c7_witness :
    ∃ d2 sh,
      battlemechReduce [("B", ([] : List Quirk)), ("A", [])] = some (d2, sh)
      ∧ ([["X", "Quirks"], ["A", "--"], ["B", "--"],
          ["<b>SHARED</b>", "--"]] : List (List String)).head? = some ["X", "Quirks"]
      ∧ ([["X", "Quirks"], ["A", "--"], ["B", "--"],
          ["<b>SHARED</b>", "--"]] : List (List String)).getLast? =
          some ["<b>SHARED</b>", quirksString sh]
      ∧ (([["X", "Quirks"], ["A", "--"], ["B", "--"],
          ["<b>SHARED</b>", "--"]] : List (List String)).drop 1).dropLast =
          (insSort pairLeB d2).map (fun p => [p.1, quirksString p.2])
      ∧ (insSort pairLeB d2).Pairwise (fun a b => pairLeB a b = true)
      ∧ (insSort pairLeB d2).Perm d2 :=
  c7_battlemech_matrix_layout "X" [("B", []), ("A", [])]
    [["X", "Quirks"], ["A", "--"], ["B", "--"], ["<b>SHARED</b>", "--"]] (by decide)

/-- Claim C8 (confirmed): on an already-reduced input — no pool quirk common
to every variant's list, no column candidate common to every pod — the 1-D
reduction returns the dict unchanged with an empty shared list, and the
per-column reduction leaves every pod unchanged with an empty shared cell. -/
theorem c8_reduction_idempotent :
    (∀ d : List (String × List Quirk),
        (∀ q ∈ bmPool d, ¬ ∀ p ∈ d, q ∈ p.2) →
        battlemechReduce d = some (d, []))
    ∧ (∀ col : List Omnipod,
        (∀ q ∈ columnCandidates col, ¬ ∀ p ∈ col, q ∈ p.quirks) →
        sharedForColumn col = [] ∧ reduceColumn col = (col, [])) := by
  constructor
  · intro d h
    exact bm_fold_fix d (bmPool d) [] h
  · intro col h
    have hsh : sharedForColumn col = [] := by
      unfold sharedForColumn
      have hfil : (columnCandidates col).filter
          (fun q => decide (∀ p ∈ col, q ∈ p.quirks)) = [] := by
        rw [List.filter_eq_nil_iff]
        intro q hq
        simp only [decide_eq_true_eq]
        exact h q hq
      rw [hfil]
      rfl
    refine ⟨hsh, ?_⟩
    unfold reduceColumn
    rw [hsh, map_self _ col (fun p _ => reducePodAgainst_nil p)]

/-- Witness for C8 at concrete already-reduced inputs. -/
theorem c8_witness :
    battlemechReduce [("A", [cqAngle]), ("B", [cqPlain])] =
      some ([("A", [cqAngle]), ("B", [cqPlain])], [])
    ∧ (sharedForColumn [podW1, podW2] = []
        ∧ reduceColumn [podW1, podW2] = ([podW1, podW2], [])) :=
  ⟨c8_reduction_idempotent.1 _ (by decide), c8_reduction_idempotent.2 _ (by decide)⟩

/-- Claim C9, counterexample to the claim as stated: for the non-dyadic
value `0.29` the program's double arithmetic rounds twice —
`float("0.29")` is the double `5224175567749775 * 2 ^ -54` just below
`0.29`, the multiplication by 100 rounds to `28.999999999999996` — so
`int` truncates to 28 and the quirk displays `28%`, although the integer
part of `100 * 0.29` is 29 (as the exact-decimal `mkQuirk` and `pyTrunc`
show). -/
theorem c9_counterexample :
    mkQuirk64 ⟨"TORSO TURN RATE", "0.29"⟩ = some ⟨"TORSO TURN RATE", "28%"⟩
    ∧ mkQuirk ⟨"TORSO TURN RATE", "0.29"⟩ = some ⟨"TORSO TURN RATE", "29%"⟩
    ∧ pyTrunc ((29 : Int) * 100, 2) = 29
    ∧ ("28%" : String) ≠ "29%" :=
  ⟨by decide, by decide, by decide, by decide⟩

/-- Claim C9 (amended, over the binary64-faithful model `mkQuirk64`):
`int(-)` truncates toward zero — the displayed integer's magnitude is
within one below the double's magnitude and its sign follows the
double's sign; the display value of a percent-eligible quirk is the
truncation of the double product `float(v) * 100` rendered with a percent
sign; whenever that double product is exactly `100 * v` the display is
the integer part of `100 * v`; and in particular `0.125` and `-0.125`
(exactly representable, with exact products) yield `12%` and `-12%`
rather than rounding away from zero. -/
theorem c9_trunc_toward_zero :
    (∀ p : Int × Int,
        |((f64TruncToInt p : Int) : ℚ)| ≤ |f64Value p|
        ∧ |f64Value p| < |((f64TruncToInt p : Int) : ℚ)| + 1
        ∧ (0 ≤ p.1 → 0 ≤ f64TruncToInt p)
        ∧ (p.1 ≤ 0 → f64TruncToInt p ≤ 0))
    ∧ (∀ (name v : String) (p : Int × Int),
        (∀ kw ∈ non_percent_quirks, strContains name kw = false) →
        pyFloat64 v = some p →
        mkQuirk64 ⟨name, v⟩ =
          some ⟨name, toString (f64TruncToInt (f64Mul100 p)) ++ "%"⟩)
    ∧ (∀ (name v : String) (m : Int) (k : Nat),
        (∀ kw ∈ non_percent_quirks, strContains name kw = false) →
        pyFloatParse v = some (m, k) →
        f64Value (f64Mul100 (ratToF64 m k)) = 100 * ratValue (m, k) →
        mkQuirk64 ⟨name, v⟩ =
            some ⟨name, toString (f64TruncToInt (f64Mul100 (ratToF64 m k))) ++ "%"⟩
          ∧ |((f64TruncToInt (f64Mul100 (ratToF64 m k)) : Int) : ℚ)|
              ≤ |100 * ratValue (m, k)|
          ∧ |100 * ratValue (m, k)|
              < |((f64TruncToInt (f64Mul100 (ratToF64 m k)) : Int) : ℚ)| + 1)
    ∧ (∀ name : String, (∀ kw ∈ non_percent_quirks, strContains name kw = false) →
        mkQuirk64 ⟨name, "0.125"⟩ = some ⟨name, "12%"⟩
        ∧ mkQuirk64 ⟨name, "-0.125"⟩ = some ⟨name, "-12%"⟩) := by
  refine ⟨?_, ?_, ?_, ?_⟩
  · intro p
    exact ⟨(f64Trunc_bounds p).1, (f64Trunc_bounds p).2,
      (f64Trunc_sign p).1, (f64Trunc_sign p).2⟩
  · intro name v p h hp64
    have hany : (non_percent_quirks.any (fun item => strContains name item)) = false := by
      rw [List.any_eq_false]
      intro kw hkw
      simp [h kw hkw]
    simp only [mkQuirk64, hany, Bool.not_false, if_true, hp64, Option.map_some']
  · intro name v m k h hparse hexact
    have hany : (non_percent_quirks.any (fun item => strContains name item)) = false := by
      rw [List.any_eq_false]
      intro kw hkw
      simp [h kw hkw]
    have hp64 : pyFloat64 v = some (ratToF64 m k) := by
      unfold pyFloat64
      rw [hparse]
      rfl
    have hb := f64Trunc_bounds (f64Mul100 (ratToF64 m k))
    rw [hexact] at hb
    refine ⟨?_, hb.1, hb.2⟩
    simp only [mkQuirk64, hany, Bool.not_false, if_true, hp64, Option.map_some']
  · intro name h
    have hany : (non_percent_quirks.any (fun item => strContains name item)) = false := by
      rw [List.any_eq_false]
      intro kw hkw
      simp [h kw hkw]
    constructor
    · have hpf : pyFloat64 "0.125" = some (4503599627370496, -55) := by decide
      simp only [mkQuirk64, hany, Bool.not_false, if_true, hpf, Option.map_some']
      have hts : toString (f64TruncToInt (f64Mul100 (4503599627370496, -55))) ++ "%" =
          "12%" := by decide
      rw [hts]
    · have hpf : pyFloat64 "-0.125" = some (-4503599627370496, -55) := by decide
      simp only [mkQuirk64, hany, Bool.not_false, if_true, hpf, Option.map_some']
      have hts : toString (f64TruncToInt (f64Mul100 (-4503599627370496, -55))) ++ "%" =
          "-12%" := by decide
      rw [hts]

/-- Witness for C9's amended theorem at a concrete percent-eligible name
and the dyadic value 0.125, whose double product is exact. -/
theorem c9_witness :
    (mkQuirk64 ⟨"TORSO TURN RATE", "0.125"⟩ = some ⟨"TORSO TURN RATE", "12%"⟩
      ∧ mkQuirk64 ⟨"TORSO TURN RATE", "-0.125"⟩ = some ⟨"TORSO TURN RATE", "-12%"⟩)
    ∧ (mkQuirk64 ⟨"TORSO TURN RATE", "0.125"⟩ =
          some ⟨"TORSO TURN RATE",
            toString (f64TruncToInt (f64Mul100 (ratToF64 125 3))) ++ "%"⟩
        ∧ |((f64TruncToInt (f64Mul100 (ratToF64 125 3)) : Int) : ℚ)|
            ≤ |100 * ratValue (125, 3)|
        ∧ |100 * ratValue (125, 3)|
            < |((f64TruncToInt (f64Mul100 (ratToF64 125 3)) : Int) : ℚ)| + 1) :=
  ⟨c9_trunc_toward_zero.2.2.2 "TORSO TURN RATE" (by decide),
   c9_trunc_toward_zero.2.2.1 "TORSO TURN RATE" "0.125" 125 3 (by decide) (by decide)
     f64_exact_125⟩


/-- Claim C10 (confirmed): an Omni-style unit built from an empty pod
mapping does not fail; its matrix has exactly two rows, a nine-cell header
(the uppercased name and the eight component labels) and a one-cell shared
row, so the grid is ragged. -/
theorem c10_empty_omnimech :
    ∀ name : String,
      mkOmnimech name [] =
        some ⟨pyUpper name, [],
          [pyUpper name :: ["Head", "Right Arm", "Right Torso", "Center Torso",
            "Left Torso", "Left Arm", "Right Leg", "Left Leg"], ["<b>SHARED</b>"]]⟩
      ∧ ([pyUpper name :: ["Head", "Right Arm", "Right Torso", "Center Torso",
            "Left Torso", "Left Arm", "Right Leg", "Left Leg"],
          (["<b>SHARED</b>"] : List String)] : List (List String)).length = 2
      ∧ (pyUpper name :: ["Head", "Right Arm", "Right Torso", "Center Torso",
          "Left Torso", "Left Arm", "Right Leg", "Left Leg"]).length = 9
      ∧ (["<b>SHARED</b>"] : List String).length = 1 := by
  intro name
  exact ⟨rfl, rfl, rfl, rfl⟩
